import Mathlib

/-!
Verification of the segmentation pipeline in `main.py`.

Python strings are modelled as their character sequences (`List Char`), and
Python lists as Lean lists.  Runtime failures of the Python code are made
explicit: `PyResult.indexError` models an `IndexError` raised by an
out-of-range subscript, `PyResult.typeError` models the `TypeError` raised by
item assignment on a string, and `PyResult.outOfFuel` models non-termination
of a `while` loop (every loop is run with an explicit fuel; a loop that makes
progress never exhausts the fuel supplied by the wrappers).

Nat subtraction and `List.take`/`List.drop` agree with Python slicing for the
non-negative indices that occur here (all theorems below assume
`length_limit ≥ 2`, under which every slice bound in the source is
non-negative).
-/

set_option maxRecDepth 10000

abbrev Str : Type := List Char

/-- Conversion from a Lean string literal to the character-sequence model. -/
def str (s : String) : Str := s.data

inductive PyResult (α : Type) where
  | ok (val : α)
  | indexError
  | typeError
  | outOfFuel
  deriving DecidableEq, Repr

/-- Python whitespace, as stripped by `str.strip()`. -/
def isPySpace (c : Char) : Bool :=
  c == ' ' || c == '\t' || c == '\n' || c == '\r' || c == Char.ofNat 11 || c == Char.ofNat 12

/-- Python `s.strip()`: remove leading and trailing whitespace. -/
def pyStrip (l : Str) : Str :=
  ((l.dropWhile isPySpace).reverse.dropWhile isPySpace).reverse

/-- Splitting a character sequence at every character satisfying `p`, keeping
empty pieces, as Python `str.split(sep)` with a one-character separator and
`re.split` with a character class both do.  The result is never empty. -/
def pySplitChars (p : Char → Bool) : Str → List Str
  | [] => [[]]
  | c :: cs =>
    if p c then [] :: pySplitChars p cs
    else
      match pySplitChars p cs with
      | [] => [[c]]
      | w :: ws => (c :: w) :: ws

/-- Python `s.split(" ")` (used by `limit_section` via `.strip().split(" ")`). -/
def splitSpaces (l : Str) : List Str := pySplitChars (fun c => c == ' ') l

/-- Python `sep.join(ws)`. -/
def pyJoin (sep : Str) : List Str → Str
  | [] => []
  | [w] => w
  | w :: ws => w ++ sep ++ pyJoin sep ws

/-- The whitespace-delimited words of a string: the non-empty pieces obtained
by splitting at spaces. -/
def words (s : Str) : List Str := (splitSpaces s).filter (fun w => !w.isEmpty)

/-- Number of whitespace-delimited words of a string. -/
def wordCount (s : Str) : Nat := (words s).length

/-- The boundary characters of `re.split(r'[?.!\n\t]', line)` in
`get_segments`. -/
def isBoundary (c : Char) : Bool :=
  c == '?' || c == '.' || c == '!' || c == '\n' || c == '\t'

/-- Model of `ensure_English` from `main.py`.  The external `langdetect.detect_langs`
classifier is passed in as `detect`; `none` models a raised
`LangDetectException`, `some probs` the returned list of languages (only the
language codes matter to the source, so a language is modelled by its code). -/
def ensure_English (detect : Str → Option (List Str)) : List Str → List Str
  | [] => []
  | s :: rest =>
    match detect s with
    | none => s :: ensure_English detect rest
    | some probs =>
      if probs.length = 1 ∧ probs.headI = str "en" then s :: ensure_English detect rest
      else ensure_English detect rest

/-- The inner `while` loop of `find_lists`:
`while sentences[list_index][0] == first_char and list_index < len(sentences)`.
The subscript `sentences[list_index]` is evaluated before the bound test, so
an out-of-range index raises before the bound test can stop the loop; this is
modelled by returning `indexError` when the subscript is out of range (or the
string is empty).  Returns the updated list and the final `list_index`. -/
def list_items_loop : Nat → List Str → Str → Char → Nat → PyResult (List Str × Nat)
  | 0, _, _, _, _ => .outOfFuel
  | fuel + 1, sentences, current, first_char, list_index =>
    match sentences[list_index]? with
    | none => .indexError
    | some s =>
      match s.head? with
      | none => .indexError
      | some c =>
        if c = first_char ∧ list_index < sentences.length then
          list_items_loop fuel (sentences.set list_index (current ++ s ++ ['.']))
            current first_char (list_index + 1)
        else .ok (sentences, list_index)

/-- The outer `while` loop of `find_lists` over `sentence_index`. -/
def find_lists_loop : Nat → List Str → Nat → PyResult (List Str)
  | 0, _, _ => .outOfFuel
  | fuel + 1, sentences, sentence_index =>
    match sentences[sentence_index]? with
    | none => .ok sentences
    | some current =>
      match current.getLast? with
      | none => .indexError
      | some lastc =>
        if lastc = ':' ∨ lastc = ';' then
          match sentences[sentence_index + 1]? with
          | none => .indexError
          | some nxt =>
            let stripped := pyStrip nxt
            if stripped.length = 0 then find_lists_loop fuel sentences (sentence_index + 1)
            else
              match stripped.head? with
              | none => .indexError
              | some first_char =>
                match list_items_loop (sentences.length + 1) sentences current first_char
                    (sentence_index + 1) with
                | .ok (sentences', list_index) => find_lists_loop fuel sentences' list_index
                | .indexError => .indexError
                | .typeError => .typeError
                | .outOfFuel => .outOfFuel
        else find_lists_loop fuel sentences (sentence_index + 1)

/-- Model of `find_lists` from `main.py`.  The outer loop advances `sentence_index` by
at least one per iteration, so `length + 1` rounds of fuel are plenty. -/
def find_lists (sentences : List Str) : PyResult (List Str) :=
  find_lists_loop (sentences.length + 1) sentences 0

/-- The innermost `while len(remainder_sentence) > length_limit` loop of
`limit_section`: slice off the first `length_limit - 1` words, terminate the
slice with a period and emit it, then drop `length_limit` words.  Returns the
extended output list and the final remainder. -/
def chunk_loop : Nat → Nat → List Str → List Str → PyResult (List Str × List Str)
  | 0, _, _, _ => .outOfFuel
  | fuel + 1, length_limit, remainder, acc =>
    if remainder.length > length_limit then
      chunk_loop fuel length_limit (remainder.drop length_limit)
        (acc ++ [pyJoin [' '] (remainder.take (length_limit - 1)) ++ ['.']])
    else .ok (acc, remainder)

/-- The inner `while current_index < len(sentences) and token_count > 0` loop
of `limit_section`, recursing over the suffix of unconsumed sentences.
Returns the extended output list, the accumulated section and the suffix of
sentences left for the next section. -/
def pack_loop (length_limit : Nat) :
    List Str → Int → Str → List Str → PyResult (List Str × Str × List Str)
  | [], _, sect, acc => .ok (acc, sect, [])
  | s :: rest, token_count, sect, acc =>
    if token_count ≤ 0 then .ok (acc, sect, s :: rest)
    else
      let ws := splitSpaces (pyStrip s)
      let overflow : PyResult (List Str × List Str) :=
        if token_count = (length_limit : Int) ∧ ws.length + 1 > length_limit then
          match chunk_loop ((ws.drop length_limit).length + 1) length_limit
              (ws.drop length_limit) acc with
          | .ok (acc', remainder) =>
            .ok (acc' ++ [pyJoin [' '] remainder], ws.take (length_limit - 2) ++ [['.']])
          | .indexError => .indexError
          | .typeError => .typeError
          | .outOfFuel => .outOfFuel
        else .ok (acc, ws)
      match overflow with
      | .ok (acc', current_sentence) =>
        let token_count' := token_count - ((current_sentence.length : Int) + 1)
        if 0 ≤ token_count' then
          pack_loop length_limit rest token_count'
            (sect ++ pyJoin [' '] current_sentence ++ [' ']) acc'
        else .ok (acc', sect, s :: rest)
      | .indexError => .indexError
      | .typeError => .typeError
      | .outOfFuel => .outOfFuel

/-- The outer `while sentence_index < len(sentences)` loop of
`limit_section`: start a fresh section with budget `length_limit`, pack, emit
the section, continue at the first unconsumed sentence. -/
def section_loop : Nat → Nat → List Str → List Str → PyResult (List Str)
  | 0, _, _, _ => .outOfFuel
  | fuel + 1, length_limit, sentences, acc =>
    match sentences with
    | [] => .ok acc
    | s :: rest =>
      match pack_loop length_limit (s :: rest) (length_limit : Int) [] acc with
      | .ok (acc', sect, rest') => section_loop fuel length_limit rest' (acc' ++ [sect])
      | .indexError => .indexError
      | .typeError => .typeError
      | .outOfFuel => .outOfFuel

/-- Model of `limit_section` from `main.py`.  Each round of the outer loop consumes at
least one sentence whenever `length_limit ≥ 2`, so `length + 1` rounds of
fuel are plenty; exhausting the fuel models non-termination of the source
loop. -/
def limit_section (sentences : List Str) (length_limit : Nat) : PyResult (List Str) :=
  section_loop (sentences.length + 1) length_limit sentences []

/-- The final loop of `get_segments` (`for sentence in segments: ...`): a
segment whose stripped text is non-empty and does not end in a period
triggers `sentence[-1] = "."`, which is item assignment on a Python string
and raises a `TypeError`; otherwise the segments are returned unchanged. -/
def assert_terminated (segments : List Str) : PyResult (List Str) :=
  if segments.all (fun s => (pyStrip s).isEmpty || ((pyStrip s).getLast? == some '.')) then
    .ok segments
  else .typeError

/-- Model of `get_segments` from `main.py`, with the file read replaced by its
contents: split the text into lines, split each line at the boundary
characters and drop empty fragments, linearize lists, terminate every
sentence with a period, pack into sections of at most 512 word-units, filter
to English, and run the final terminal-period check. -/
def get_segments (detect : Str → Option (List Str)) (file_contents : Str) :
    PyResult (List Str) :=
  let line_contents := pySplitChars (fun c => c == '\n') file_contents
  let sentences :=
    (line_contents.map (fun line => (pySplitChars isBoundary line).filter
      (fun w => !w.isEmpty))).flatten
  match find_lists sentences with
  | .ok ss =>
    match limit_section (ss.map (fun s => s ++ ['.'])) 512 with
    | .ok segments => assert_terminated (ensure_English detect segments)
    | .indexError => .indexError
    | .typeError => .typeError
    | .outOfFuel => .outOfFuel
  | .indexError => .indexError
  | .typeError => .typeError
  | .outOfFuel => .outOfFuel

/-! ### Basic facts about splitting, joining and stripping -/

theorem pySplitChars_ne_nil (p : Char → Bool) (l : Str) : pySplitChars p l ≠ [] := by
  cases l with
  | nil => simp [pySplitChars]
  | cons c cs =>
    unfold pySplitChars
    cases hp : p c with
    | true => simp
    | false =>
      simp only [Bool.false_eq_true, if_false]
      cases h : pySplitChars p cs <;> simp

theorem pySplitChars_sep_not_mem (p : Char → Bool) (l : Str) :
    ∀ w ∈ pySplitChars p l, ∀ c ∈ w, p c = false := by
  induction l with
  | nil =>
    intro w hw c hc
    simp [pySplitChars] at hw
    subst hw
    simp at hc
  | cons a as ih =>
    intro w hw c hc
    unfold pySplitChars at hw
    cases hp : p a with
    | true =>
      rw [hp] at hw
      simp only [if_true] at hw
      rcases List.mem_cons.mp hw with rfl | hw
      · simp at hc
      · exact ih w hw c hc
    | false =>
      rw [hp] at hw
      simp only [Bool.false_eq_true, if_false] at hw
      cases hsp : pySplitChars p as with
      | nil => exact absurd hsp (pySplitChars_ne_nil p as)
      | cons v vs =>
        rw [hsp] at hw
        rcases List.mem_cons.mp hw with rfl | hw
        · rcases List.mem_cons.mp hc with rfl | hc
          · exact hp
          · exact ih v (hsp ▸ List.mem_cons_self v vs) c hc
        · exact ih w (hsp ▸ List.mem_cons_of_mem v hw) c hc

theorem pySplitChars_eq_single (p : Char → Bool) {l : Str} (h : ∀ c ∈ l, p c = false) :
    pySplitChars p l = [l] := by
  induction l with
  | nil => rfl
  | cons a as ih =>
    have ha := h a (List.mem_cons_self a as)
    have ih' := ih fun c hc => h c (List.mem_cons_of_mem a hc)
    unfold pySplitChars
    rw [ha]
    simp only [Bool.false_eq_true, if_false, ih']

theorem pySplitChars_cons_pos {p : Char → Bool} {c : Char} (h : p c = true) (cs : Str) :
    pySplitChars p (c :: cs) = [] :: pySplitChars p cs := by
  simp only [pySplitChars, h]
  simp

theorem pySplitChars_cons_neg {p : Char → Bool} {c : Char} (h : p c = false) {cs : Str}
    {v : Str} {vs : List Str} (hsp : pySplitChars p cs = v :: vs) :
    pySplitChars p (c :: cs) = (c :: v) :: vs := by
  simp only [pySplitChars, h, hsp]
  simp

theorem pySplitChars_append (p : Char → Bool) {c : Char} (hc : p c = true) (xs ys : Str) :
    pySplitChars p (xs ++ c :: ys) = pySplitChars p xs ++ pySplitChars p ys := by
  induction xs with
  | nil =>
    rw [List.nil_append, pySplitChars_cons_pos hc]
    rfl
  | cons a as ih =>
    simp only [List.cons_append]
    cases hp : p a with
    | true =>
      rw [pySplitChars_cons_pos hp, pySplitChars_cons_pos hp, ih, List.cons_append]
    | false =>
      obtain ⟨v, vs, hsp⟩ := List.exists_cons_of_ne_nil (pySplitChars_ne_nil p as)
      have hsp2 : pySplitChars p (as ++ c :: ys) = v :: (vs ++ pySplitChars p ys) := by
        rw [ih, hsp]
        rfl
      rw [pySplitChars_cons_neg hp hsp2, pySplitChars_cons_neg hp hsp]
      simp

theorem splitSpaces_eq_single {l : Str} (h : ∀ c ∈ l, (c == ' ') = false) :
    splitSpaces l = [l] :=
  pySplitChars_eq_single _ h

theorem splitSpaces_ne_nil (l : Str) : splitSpaces l ≠ [] := pySplitChars_ne_nil _ l

theorem splitSpaces_not_space {l : Str} : ∀ w ∈ splitSpaces l, ∀ c ∈ w, (c == ' ') = false :=
  pySplitChars_sep_not_mem _ l

theorem splitSpaces_append (xs ys : Str) :
    splitSpaces (xs ++ ' ' :: ys) = splitSpaces xs ++ splitSpaces ys :=
  pySplitChars_append _ rfl xs ys

theorem splitSpaces_cons_pos {a : Char} (h : (a == ' ') = true) (as : Str) :
    splitSpaces (a :: as) = [] :: splitSpaces as :=
  pySplitChars_cons_pos (p := fun c => c == ' ') h as

theorem splitSpaces_cons_neg {a : Char} (h : (a == ' ') = false) {as : Str} {v : Str}
    {vs : List Str} (hsp : splitSpaces as = v :: vs) :
    splitSpaces (a :: as) = (a :: v) :: vs :=
  pySplitChars_cons_neg (p := fun c => c == ' ') h hsp

theorem pyJoin_cons_cons (sep : Str) (w v : Str) (vs : List Str) :
    pyJoin sep (w :: v :: vs) = w ++ sep ++ pyJoin sep (v :: vs) := rfl

theorem pyJoin_splitSpaces (l : Str) : pyJoin [' '] (splitSpaces l) = l := by
  induction l with
  | nil => rfl
  | cons a as ih =>
    obtain ⟨v, vs, hsp⟩ := List.exists_cons_of_ne_nil (splitSpaces_ne_nil as)
    cases hp : a == ' ' with
    | true =>
      have ha : a = ' ' := beq_iff_eq.mp hp
      rw [splitSpaces_cons_pos hp, hsp, pyJoin_cons_cons]
      simp only [List.nil_append, List.singleton_append]
      rw [← hsp, ih, ha]
    | false =>
      rw [splitSpaces_cons_neg hp hsp]
      rw [hsp] at ih
      cases vs with
      | nil =>
        simp only [pyJoin] at ih ⊢
        rw [ih]
      | cons u us =>
        rw [pyJoin_cons_cons] at ih ⊢
        rw [show (a :: v) ++ [' '] ++ pyJoin [' '] (u :: us)
            = a :: (v ++ [' '] ++ pyJoin [' '] (u :: us)) by simp]
        rw [ih]

theorem splitSpaces_pyJoin {ws : List Str} (hne : ws ≠ [])
    (hsf : ∀ w ∈ ws, ∀ c ∈ w, (c == ' ') = false) :
    splitSpaces (pyJoin [' '] ws) = ws := by
  induction ws with
  | nil => exact absurd rfl hne
  | cons w vs ih =>
    cases vs with
    | nil => simpa [pyJoin] using splitSpaces_eq_single (hsf w (List.mem_cons_self w []))
    | cons v vs' =>
      rw [pyJoin_cons_cons,
        show w ++ [' '] ++ pyJoin [' '] (v :: vs') = w ++ ' ' :: pyJoin [' '] (v :: vs') by simp,
        splitSpaces_append,
        splitSpaces_eq_single (hsf w (List.mem_cons_self w (v :: vs'))),
        ih (by simp) (fun u hu c hc => hsf u (List.mem_cons_of_mem w hu) c hc)]
      rfl

theorem words_nil : words [] = [] := rfl

theorem words_append_space (xs ys : Str) : words (xs ++ ' ' :: ys) = words xs ++ words ys := by
  unfold words
  rw [splitSpaces_append, List.filter_append]

theorem words_append_single_space (xs : Str) : words (xs ++ [' ']) = words xs := by
  have := words_append_space xs []
  simpa [words_nil] using this

theorem words_pyJoin {ws : List Str} (hne : ws ≠ [])
    (hsf : ∀ w ∈ ws, ∀ c ∈ w, (c == ' ') = false) :
    words (pyJoin [' '] ws) = ws.filter (fun w => !w.isEmpty) := by
  unfold words
  rw [splitSpaces_pyJoin hne hsf]

theorem wordCount_pyJoin_le (ws : List Str)
    (hsf : ∀ w ∈ ws, ∀ c ∈ w, (c == ' ') = false) :
    wordCount (pyJoin [' '] ws) ≤ ws.length := by
  cases hw : ws with
  | nil => simp [wordCount, words, pyJoin, splitSpaces, pySplitChars]
  | cons v vs =>
    rw [← hw]
    unfold wordCount
    rw [words_pyJoin (by rw [hw]; simp) hsf]
    exact List.length_filter_le _ ws

theorem pyJoin_getLast? {ws : List Str} {w : Str} (h : ws.getLast? = some w) (hw : w ≠ []) :
    (pyJoin [' '] ws).getLast? = w.getLast? := by
  induction ws with
  | nil => simp at h
  | cons a as ih =>
    cases as with
    | nil =>
      simp only [List.getLast?_singleton, Option.some_inj] at h
      rw [h]
      rfl
    | cons b bs =>
      have h' : (b :: bs).getLast? = some w := by
        rwa [List.getLast?_cons_cons] at h
      rw [pyJoin_cons_cons, List.append_assoc, List.getLast?_append, List.getLast?_append,
        ih h']
      obtain ⟨c, hc⟩ := Option.isSome_iff_exists.mp (List.getLast?_isSome.mpr hw)
      rw [hc]
      rfl

theorem pyJoin_append_singleton {sep : Str} : ∀ {B : List Str}, B ≠ [] → ∀ w : Str,
    pyJoin sep (B ++ [w]) = pyJoin sep B ++ sep ++ w
  | [], h, _ => absurd rfl h
  | [_], _, _ => rfl
  | a :: b :: bs, _, w => by
    rw [show (a :: b :: bs) ++ [w] = a :: (b :: (bs ++ [w])) from rfl, pyJoin_cons_cons]
    rw [show b :: (bs ++ [w]) = (b :: bs) ++ [w] from rfl]
    rw [pyJoin_append_singleton (by simp) w, pyJoin_cons_cons]
    simp [List.append_assoc]

theorem pyJoin_concat (B : List Str) (w t : Str) :
    pyJoin [' '] (B ++ [w]) ++ t = pyJoin [' '] (B ++ [w ++ t]) := by
  cases hB : B with
  | nil => rfl
  | cons a as =>
    rw [← hB, pyJoin_append_singleton (by rw [hB]; simp),
      pyJoin_append_singleton (by rw [hB]; simp)]
    simp [List.append_assoc]

/-! ### Stripping and termination of segments -/

theorem pyStrip_append_spaces {B : Str} {c : Char} {S : Str}
    (hc : isPySpace c = false) (hS : ∀ x ∈ S, isPySpace x = true) :
    (pyStrip (B ++ c :: S)).getLast? = some c := by
  unfold pyStrip
  have hnc : ¬ (isPySpace c = true) := by simp [hc]
  obtain ⟨E, hE⟩ : ∃ E, (B ++ c :: S).dropWhile isPySpace = E ++ c :: S := by
    rw [List.dropWhile_append]
    by_cases h : ((B.dropWhile isPySpace).isEmpty = true)
    · exact ⟨[], by rw [if_pos h, List.dropWhile_cons_of_neg hnc]; rfl⟩
    · exact ⟨B.dropWhile isPySpace, by rw [if_neg h]⟩
  rw [hE]
  rw [show (E ++ c :: S).reverse = S.reverse ++ c :: E.reverse by simp]
  rw [List.dropWhile_append_of_pos (fun a ha => hS a (by simpa using ha))]
  rw [List.dropWhile_cons_of_neg hnc]
  rw [show (c :: E.reverse).reverse = E ++ [c] by simp]
  exact List.getLast?_concat _

theorem pyStrip_getLast_eq {l : Str} {c : Char} (h : l.getLast? = some c)
    (hc : isPySpace c = false) : (pyStrip l).getLast? = some c := by
  obtain ⟨B, rfl⟩ := List.getLast?_eq_some_iff.mp h
  exact pyStrip_append_spaces hc (by simp)

theorem pyStrip_eq_self {l : Str} {a b : Char} (hh : l.head? = some a)
    (ha : isPySpace a = false) (hl : l.getLast? = some b) (hb : isPySpace b = false) :
    pyStrip l = l := by
  obtain ⟨x, xs, rfl⟩ : ∃ x xs, l = x :: xs := by
    cases l with
    | nil => simp at hh
    | cons x xs => exact ⟨x, xs, rfl⟩
  have hax : x = a := by simpa using hh
  unfold pyStrip
  rw [List.dropWhile_cons_of_neg (by rw [hax]; simp [ha])]
  obtain ⟨ys, hys⟩ := List.getLast?_eq_some_iff.mp hl
  rw [hys, show (ys ++ [b]).reverse = b :: ys.reverse by simp]
  rw [List.dropWhile_cons_of_neg (by simp [hb])]
  simp

theorem getLast?_drop_of_ne_nil {α : Type} {l : List α} {n : Nat} (h : l.drop n ≠ []) :
    (l.drop n).getLast? = l.getLast? := by
  conv_rhs => rw [← List.take_append_drop n l]
  rw [List.getLast?_append]
  obtain ⟨c, hc⟩ := Option.isSome_iff_exists.mp (List.getLast?_isSome.mpr h)
  rw [hc]
  rfl

/-- A string is terminated when, after stripping whitespace, it is empty or
ends in a period; this is exactly the property examined by the final loop of
`get_segments`. -/
def Terminated (s : Str) : Prop := pyStrip s = [] ∨ (pyStrip s).getLast? = some '.'

/-- Shape of a section under construction in `limit_section`: empty, or
ending in a period followed by the separating space appended after every
packed sentence. -/
def SectShape (s : Str) : Prop := s = [] ∨ ∃ A, s = A ++ ['.', ' ']

theorem Terminated_of_SectShape {s : Str} (h : SectShape s) : Terminated s := by
  rcases h with rfl | ⟨A, rfl⟩
  · exact Or.inl rfl
  · refine Or.inr (pyStrip_append_spaces (by decide) ?_)
    intro x hx
    simp only [List.mem_singleton] at hx
    subst hx
    decide

theorem Terminated_of_getLast_dot {s : Str} (h : s.getLast? = some '.') : Terminated s :=
  Or.inr (pyStrip_getLast_eq h (by decide))

theorem assert_terminated_ok {segments : List Str} (h : ∀ s ∈ segments, Terminated s) :
    assert_terminated segments = .ok segments := by
  unfold assert_terminated
  rw [if_pos]
  rw [List.all_eq_true]
  intro s hs
  rcases h s hs with h1 | h1
  · simp [h1]
  · simp [h1]

theorem assert_terminated_typeError {segments : List Str} {s : Str} (hs : s ∈ segments)
    (h1 : pyStrip s ≠ []) (h2 : (pyStrip s).getLast? ≠ some '.') :
    assert_terminated segments = .typeError := by
  have hna : ¬ (segments.all
      (fun s => (pyStrip s).isEmpty || ((pyStrip s).getLast? == some '.')) = true) := by
    rw [List.all_eq_true]
    intro hall
    have := hall s hs
    simp [List.isEmpty_iff, h1, h2] at this
  unfold assert_terminated
  rw [if_neg hna]

theorem ensure_English_mem (detect : Str → Option (List Str)) (sentences : List Str)
    (s : Str) :
    s ∈ ensure_English detect sentences ↔
      s ∈ sentences ∧ (detect s = none ∨
        ∃ probs, detect s = some probs ∧ probs.length = 1 ∧ probs.headI = str "en") := by
  induction sentences with
  | nil => simp [ensure_English]
  | cons a rest ih =>
    unfold ensure_English
    cases hd : detect a with
    | none =>
      simp only [List.mem_cons]
      constructor
      · rintro (rfl | hs)
        · exact ⟨Or.inl rfl, Or.inl hd⟩
        · have h := ih.mp hs
          exact ⟨Or.inr h.1, h.2⟩
      · rintro ⟨rfl | hmem, hcond⟩
        · exact Or.inl rfl
        · exact Or.inr (ih.mpr ⟨hmem, hcond⟩)
    | some probs =>
      dsimp only
      by_cases hc : probs.length = 1 ∧ probs.headI = str "en"
      · rw [if_pos hc]
        simp only [List.mem_cons]
        constructor
        · rintro (rfl | hs)
          · exact ⟨Or.inl rfl, Or.inr ⟨probs, hd, hc.1, hc.2⟩⟩
          · have h := ih.mp hs
            exact ⟨Or.inr h.1, h.2⟩
        · rintro ⟨rfl | hmem, hcond⟩
          · exact Or.inl rfl
          · exact Or.inr (ih.mpr ⟨hmem, hcond⟩)
      · rw [if_neg hc, ih]
        simp only [List.mem_cons]
        constructor
        · rintro ⟨hmem, hcond⟩
          exact ⟨Or.inr hmem, hcond⟩
        · rintro ⟨rfl | hmem, hcond⟩
          · rcases hcond with h | ⟨p2, hp2, hlen, hhead⟩
            · rw [hd] at h
              cases h
            · rw [hd] at hp2
              injection hp2 with e
              subst e
              exact absurd ⟨hlen, hhead⟩ hc
          · exact ⟨hmem, hcond⟩

theorem ensure_English_subset {detect : Str → Option (List Str)} {sentences : List Str} :
    ∀ s ∈ ensure_English detect sentences, s ∈ sentences :=
  fun s hs => ((ensure_English_mem detect sentences s).mp hs).1

/-! ### The forced-overflow chunk loop -/

theorem chunk_loop_spec {length_limit : Nat} (hl : 1 ≤ length_limit) :
    ∀ (fuel : Nat) (rem acc : List Str), rem.length < fuel →
    ∃ extra rem', chunk_loop fuel length_limit rem acc = .ok (acc ++ extra, rem') ∧
      rem'.length ≤ length_limit ∧ (∃ m, rem' = rem.drop m) ∧
      ∀ t ∈ extra, ∃ A, t = pyJoin [' '] A ++ ['.'] ∧ A.length ≤ length_limit - 1 ∧
        ∀ w ∈ A, w ∈ rem := by
  intro fuel
  induction fuel with
  | zero =>
    intro rem acc h
    omega
  | succ fuel ih =>
    intro rem acc h
    unfold chunk_loop
    by_cases hlen : rem.length > length_limit
    · rw [if_pos hlen]
      have hlt : (rem.drop length_limit).length < fuel := by
        rw [List.length_drop]
        omega
      obtain ⟨extra, rem', heq, hle, ⟨m, hm⟩, hslices⟩ := ih (rem.drop length_limit) _ hlt
      refine ⟨(pyJoin [' '] (rem.take (length_limit - 1)) ++ ['.']) :: extra, rem', ?_, hle,
        ⟨length_limit + m, by rw [hm, List.drop_drop]⟩, ?_⟩
      · rw [heq]
        congr 1
        simp
      · intro t ht
        rcases List.mem_cons.mp ht with rfl | ht
        · refine ⟨rem.take (length_limit - 1), rfl, by simp [List.length_take], ?_⟩
          exact fun w hw => List.take_subset _ _ hw
        · obtain ⟨A, hA, hAle, hAmem⟩ := hslices t ht
          exact ⟨A, hA, hAle, fun w hw => List.drop_subset _ _ (hAmem w hw)⟩
    · rw [if_neg hlen]
      exact ⟨[], rem, by simp, by omega, ⟨0, by simp⟩, by simp⟩

/-! ### Step equations for the packing loop -/

theorem pack_loop_nil (length_limit : Nat) (tc : Int) (sect : Str) (acc : List Str) :
    pack_loop length_limit [] tc sect acc = .ok (acc, sect, []) := rfl

theorem pack_loop_stop {tc : Int} (h : tc ≤ 0) (length_limit : Nat) (s : Str)
    (rest : List Str) (sect : Str) (acc : List Str) :
    pack_loop length_limit (s :: rest) tc sect acc = .ok (acc, sect, s :: rest) := by
  conv_lhs => unfold pack_loop
  rw [if_pos h]

theorem pack_loop_step_no_overflow {length_limit : Nat} {tc : Int} {s : Str}
    (h0 : ¬ tc ≤ 0)
    (hno : ¬ (tc = (length_limit : Int) ∧ (splitSpaces (pyStrip s)).length + 1 > length_limit))
    (rest : List Str) (sect : Str) (acc : List Str) :
    pack_loop length_limit (s :: rest) tc sect acc =
      if 0 ≤ tc - (((splitSpaces (pyStrip s)).length : Int) + 1) then
        pack_loop length_limit rest (tc - (((splitSpaces (pyStrip s)).length : Int) + 1))
          (sect ++ pyJoin [' '] (splitSpaces (pyStrip s)) ++ [' ']) acc
      else .ok (acc, sect, s :: rest) := by
  conv_lhs => unfold pack_loop
  rw [if_neg h0]
  dsimp only
  rw [if_neg hno]

theorem pack_loop_step_overflow {length_limit : Nat} {tc : Int} {s : Str}
    (h0 : ¬ tc ≤ 0)
    (hov : tc = (length_limit : Int) ∧ (splitSpaces (pyStrip s)).length + 1 > length_limit)
    {acc acc₁ rem' : List Str}
    (hch : chunk_loop (((splitSpaces (pyStrip s)).drop length_limit).length + 1) length_limit
      ((splitSpaces (pyStrip s)).drop length_limit) acc = .ok (acc₁, rem'))
    (rest : List Str) (sect : Str) :
    pack_loop length_limit (s :: rest) tc sect acc =
      if 0 ≤ tc - (((((splitSpaces (pyStrip s)).take (length_limit - 2) ++ [['.']]).length : Nat) :
          Int) + 1) then
        pack_loop length_limit rest
          (tc - (((((splitSpaces (pyStrip s)).take (length_limit - 2) ++ [['.']]).length : Nat) :
            Int) + 1))
          (sect ++ pyJoin [' '] ((splitSpaces (pyStrip s)).take (length_limit - 2) ++ [['.']])
            ++ [' '])
          (acc₁ ++ [pyJoin [' '] rem'])
      else .ok (acc₁ ++ [pyJoin [' '] rem'], sect, s :: rest) := by
  conv_lhs => unfold pack_loop
  rw [if_neg h0]
  dsimp only
  rw [if_pos hov, hch]

/-! ### Termination of the packing loops -/

theorem pack_loop_ok {length_limit : Nat} (hl : 1 ≤ length_limit) :
    ∀ (cur : List Str) (tc : Int) (sect : Str) (acc : List Str),
    ∃ acc' sect' k, pack_loop length_limit cur tc sect acc = .ok (acc', sect', cur.drop k) ∧
      (cur ≠ [] → tc = (length_limit : Int) → 2 ≤ length_limit → 1 ≤ k) := by
  intro cur
  induction cur with
  | nil =>
    intro tc sect acc
    exact ⟨acc, sect, 0, pack_loop_nil length_limit tc sect acc, by simp⟩
  | cons s rest ih =>
    intro tc sect acc
    by_cases h0 : tc ≤ 0
    · refine ⟨acc, sect, 0, by rw [pack_loop_stop h0, List.drop_zero], ?_⟩
      intro _ htc h2
      exfalso
      omega
    · by_cases hov : tc = (length_limit : Int) ∧ (splitSpaces (pyStrip s)).length + 1 >
          length_limit
      · obtain ⟨extra, rem', hch, _, _, _⟩ := chunk_loop_spec hl
          (((splitSpaces (pyStrip s)).drop length_limit).length + 1)
          ((splitSpaces (pyStrip s)).drop length_limit) acc (by omega)
        rw [pack_loop_step_overflow h0 hov hch]
        by_cases hfit : 0 ≤ tc -
            (((((splitSpaces (pyStrip s)).take (length_limit - 2) ++ [['.']]).length : Nat) :
              Int) + 1)
        · rw [if_pos hfit]
          obtain ⟨acc', sect', k', heq, _⟩ := ih _ _ _
          exact ⟨acc', sect', k' + 1, by rw [List.drop_succ_cons]; exact heq, fun _ _ _ => by
            omega⟩
        · rw [if_neg hfit]
          refine ⟨_, sect, 0, by rw [List.drop_zero], ?_⟩
          intro _ htc h2
          exfalso
          have hwsl : length_limit ≤ (splitSpaces (pyStrip s)).length := by omega
          have hcs : ((splitSpaces (pyStrip s)).take (length_limit - 2) ++ [['.']]).length
              = length_limit - 1 := by
            simp only [List.length_append, List.length_take, List.length_singleton]
            omega
          rw [hcs] at hfit
          omega
      · rw [pack_loop_step_no_overflow h0 hov]
        by_cases hfit : 0 ≤ tc - (((splitSpaces (pyStrip s)).length : Int) + 1)
        · rw [if_pos hfit]
          obtain ⟨acc', sect', k', heq, _⟩ := ih _ _ _
          exact ⟨acc', sect', k' + 1, by rw [List.drop_succ_cons]; exact heq, fun _ _ _ => by
            omega⟩
        · rw [if_neg hfit]
          refine ⟨acc, sect, 0, by rw [List.drop_zero], ?_⟩
          intro _ htc h2
          exfalso
          have : ¬ ((splitSpaces (pyStrip s)).length + 1 > length_limit) := fun hgt =>
            hov ⟨htc, hgt⟩
          omega

theorem section_loop_ok {length_limit : Nat} (h2 : 2 ≤ length_limit) :
    ∀ (fuel : Nat) (cur acc : List Str), cur.length < fuel →
    ∃ out, section_loop fuel length_limit cur acc = .ok out := by
  intro fuel
  induction fuel with
  | zero =>
    intro cur acc h
    omega
  | succ fuel ih =>
    intro cur acc h
    cases cur with
    | nil => exact ⟨acc, rfl⟩
    | cons s rest =>
      obtain ⟨acc', sect', k, heq, hk⟩ := pack_loop_ok (show 1 ≤ length_limit by omega) (s :: rest)
        (length_limit : Int) [] acc
      have hk1 : 1 ≤ k := hk (by simp) rfl h2
      have hlt : ((s :: rest).drop k).length < fuel := by
        rw [List.length_drop]
        have hc : (s :: rest).length = rest.length + 1 := List.length_cons s rest
        omega
      obtain ⟨out, hout⟩ := ih ((s :: rest).drop k) (acc' ++ [sect']) hlt
      refine ⟨out, ?_⟩
      conv_lhs => unfold section_loop
      dsimp only
      rw [heq]
      exact hout

/-- Helper: `limit_section` always succeeds when the limit is at least two. -/
theorem limit_section_ok {sentences : List Str} {length_limit : Nat} (h2 : 2 ≤ length_limit) :
    ∃ out, limit_section sentences length_limit = .ok out :=
  section_loop_ok h2 (sentences.length + 1) sentences [] (by omega)

theorem section_loop_nil (fuel length_limit : Nat) (acc : List Str) :
    section_loop (fuel + 1) length_limit [] acc = .ok acc := rfl

theorem section_loop_cons {fuel length_limit : Nat} {s : Str} {rest acc acc' : List Str}
    {sect' : Str} {rest' : List Str}
    (heq : pack_loop length_limit (s :: rest) (length_limit : Int) [] acc =
      .ok (acc', sect', rest')) :
    section_loop (fuel + 1) length_limit (s :: rest) acc =
      section_loop fuel length_limit rest' (acc' ++ [sect']) := by
  conv_lhs => unfold section_loop
  dsimp only
  rw [heq]

/-! ### Word counts of packed sections -/

theorem words_append_sect {sect chunk : Str} (h : sect = [] ∨ sect.getLast? = some ' ') :
    words (sect ++ chunk) = words sect ++ words chunk := by
  rcases h with rfl | h
  · simp [words_nil]
  · obtain ⟨X, rfl⟩ := List.getLast?_eq_some_iff.mp h
    rw [List.append_assoc, show [' '] ++ chunk = ' ' :: chunk from rfl, words_append_space,
      words_append_single_space]

theorem wordCount_pyJoin_concat_le {A : List Str}
    (hsf : ∀ w ∈ A, ∀ c ∈ w, (c == ' ') = false) :
    wordCount (pyJoin [' '] A ++ ['.']) ≤ A.length + 1 := by
  rcases List.eq_nil_or_concat A with rfl | ⟨B, w, rfl⟩
  · simp [wordCount, words, pyJoin, splitSpaces, pySplitChars]
  · simp only [List.concat_eq_append] at hsf ⊢
    rw [pyJoin_concat]
    have hsf' : ∀ u ∈ B ++ [w ++ ['.']], ∀ c ∈ u, (c == ' ') = false := by
      intro u hu c hc
      rcases List.mem_append.mp hu with hu | hu
      · exact hsf u (List.mem_append.mpr (Or.inl hu)) c hc
      · simp only [List.mem_singleton] at hu
        subst hu
        rcases List.mem_append.mp hc with hc | hc
        · exact hsf w (List.mem_append.mpr (Or.inr (List.mem_singleton.mpr rfl))) c hc
        · simp only [List.mem_singleton] at hc
          subst hc
          rfl
    calc wordCount (pyJoin [' '] (B ++ [w ++ ['.']])) ≤ (B ++ [w ++ ['.']]).length :=
          wordCount_pyJoin_le _ hsf'
      _ = B.length + 1 := by simp
      _ ≤ (B ++ [w]).length + 1 := by simp

theorem pack_loop_wc {length_limit : Nat} (hl : 1 ≤ length_limit) :
    ∀ (cur : List Str) (tc : Int) (sect : Str) (acc : List Str),
    0 ≤ tc →
    (∀ t ∈ acc, wordCount t ≤ length_limit) →
    (sect = [] ∨ sect.getLast? = some ' ') →
    (wordCount sect : Int) + tc ≤ (length_limit : Int) →
    ∃ acc' sect' rest', pack_loop length_limit cur tc sect acc = .ok (acc', sect', rest') ∧
      (∀ t ∈ acc', wordCount t ≤ length_limit) ∧ wordCount sect' ≤ length_limit := by
  intro cur
  induction cur with
  | nil =>
    intro tc sect acc htc hacc hsp hinv
    exact ⟨acc, sect, [], pack_loop_nil length_limit tc sect acc, hacc, by omega⟩
  | cons s rest ih =>
    intro tc sect acc htc hacc hsp hinv
    by_cases h0 : tc ≤ 0
    · exact ⟨acc, sect, s :: rest, pack_loop_stop h0 length_limit s rest sect acc, hacc,
        by omega⟩
    · have hws := splitSpaces_not_space (l := pyStrip s)
      by_cases hov : tc = (length_limit : Int) ∧ (splitSpaces (pyStrip s)).length + 1 >
          length_limit
      · obtain ⟨extra, rem', hch, hremle, ⟨m, hm⟩, hslices⟩ := chunk_loop_spec hl
          (((splitSpaces (pyStrip s)).drop length_limit).length + 1)
          ((splitSpaces (pyStrip s)).drop length_limit) acc (by omega)
        rw [pack_loop_step_overflow h0 hov hch]
        have hacc₁ : ∀ t ∈ acc ++ extra ++ [pyJoin [' '] rem'], wordCount t ≤ length_limit := by
          intro t ht
          rcases List.mem_append.mp ht with ht | ht
          · rcases List.mem_append.mp ht with ht | ht
            · exact hacc t ht
            · obtain ⟨A, rfl, hAle, hAmem⟩ := hslices t ht
              have : wordCount (pyJoin [' '] A ++ ['.']) ≤ A.length + 1 :=
                wordCount_pyJoin_concat_le (fun w hw c hc =>
                  hws w (List.drop_subset _ _ (hAmem w hw)) c hc)
              omega
          · simp only [List.mem_singleton] at ht
            subst ht
            have : wordCount (pyJoin [' '] rem') ≤ rem'.length :=
              wordCount_pyJoin_le _ (fun w hw c hc => hws w (by
                rw [hm] at hw
                exact List.drop_subset _ _ (List.drop_subset _ _ hw)) c hc)
            omega
        have hcssf : ∀ w ∈ (splitSpaces (pyStrip s)).take (length_limit - 2) ++ [['.']],
            ∀ c ∈ w, (c == ' ') = false := by
          intro w hw c hc
          rcases List.mem_append.mp hw with hw | hw
          · exact hws w (List.take_subset _ _ hw) c hc
          · simp only [List.mem_singleton] at hw
            subst hw
            simp only [List.mem_singleton] at hc
            subst hc
            rfl
        have hwcs : wordCount (pyJoin [' ']
            ((splitSpaces (pyStrip s)).take (length_limit - 2) ++ [['.']])) ≤
            ((splitSpaces (pyStrip s)).take (length_limit - 2) ++ [['.']]).length :=
          wordCount_pyJoin_le _ hcssf
        by_cases hfit : 0 ≤ tc -
            (((((splitSpaces (pyStrip s)).take (length_limit - 2) ++ [['.']]).length : Nat) :
              Int) + 1)
        · rw [if_pos hfit]
          have hsect₂ : wordCount (sect ++ pyJoin [' ']
              ((splitSpaces (pyStrip s)).take (length_limit - 2) ++ [['.']]) ++ [' ']) =
              wordCount sect + wordCount (pyJoin [' ']
                ((splitSpaces (pyStrip s)).take (length_limit - 2) ++ [['.']])) := by
            unfold wordCount
            rw [words_append_single_space (sect ++ pyJoin [' ']
                ((splitSpaces (pyStrip s)).take (length_limit - 2) ++ [['.']])),
              words_append_sect hsp, List.length_append]
          refine ih _ _ _ hfit hacc₁ (Or.inr (List.getLast?_concat _)) ?_
          rw [hsect₂]
          push_cast
          omega
        · rw [if_neg hfit]
          exact ⟨_, sect, s :: rest, rfl, hacc₁, by omega⟩
      · rw [pack_loop_step_no_overflow h0 hov]
        have hwj : wordCount (pyJoin [' '] (splitSpaces (pyStrip s))) ≤
            (splitSpaces (pyStrip s)).length :=
          wordCount_pyJoin_le _ hws
        by_cases hfit : 0 ≤ tc - (((splitSpaces (pyStrip s)).length : Int) + 1)
        · rw [if_pos hfit]
          have hsect₂ : wordCount (sect ++ pyJoin [' '] (splitSpaces (pyStrip s)) ++ [' ']) =
              wordCount sect + wordCount (pyJoin [' '] (splitSpaces (pyStrip s))) := by
            unfold wordCount
            rw [words_append_single_space (sect ++ pyJoin [' '] (splitSpaces (pyStrip s))),
              words_append_sect hsp, List.length_append]
          refine ih _ _ _ hfit hacc (Or.inr (List.getLast?_concat _)) ?_
          rw [hsect₂]
          push_cast
          omega
        · rw [if_neg hfit]
          exact ⟨acc, sect, s :: rest, rfl, hacc, by omega⟩

theorem section_loop_wc {length_limit : Nat} (hl : 1 ≤ length_limit) :
    ∀ (fuel : Nat) (cur acc out : List Str),
    (∀ t ∈ acc, wordCount t ≤ length_limit) →
    section_loop fuel length_limit cur acc = .ok out →
    ∀ t ∈ out, wordCount t ≤ length_limit := by
  intro fuel
  induction fuel with
  | zero =>
    intro cur acc out hacc heq
    exact absurd heq (by simp [section_loop])
  | succ fuel ih =>
    intro cur acc out hacc heq
    cases cur with
    | nil =>
      rw [section_loop_nil] at heq
      injection heq with h
      subst h
      exact hacc
    | cons s rest =>
      obtain ⟨acc', sect', rest', hpack, hacc', hsect'⟩ := pack_loop_wc hl (s :: rest)
        (length_limit : Int) [] acc (by omega) hacc (Or.inl rfl)
        (by simp [wordCount, words_nil])
      rw [section_loop_cons hpack] at heq
      refine ih rest' (acc' ++ [sect']) out ?_ heq
      intro t ht
      rcases List.mem_append.mp ht with ht | ht
      · exact hacc' t ht
      · simp only [List.mem_singleton] at ht
        subst ht
        exact hsect'

theorem pack_loop_exact_fit {length_limit : Nat} {tc : Int} {s : Str}
    (h0 : 0 < tc)
    (hno : ¬ (tc = (length_limit : Int) ∧ (splitSpaces (pyStrip s)).length + 1 > length_limit))
    (hexact : tc - (((splitSpaces (pyStrip s)).length : Int) + 1) = 0)
    (rest : List Str) (sect : Str) (acc : List Str) :
    pack_loop length_limit (s :: rest) tc sect acc =
      .ok (acc, sect ++ pyJoin [' '] (splitSpaces (pyStrip s)) ++ [' '], rest) := by
  rw [pack_loop_step_no_overflow (by omega) hno, if_pos (by omega), hexact]
  cases rest with
  | nil => exact pack_loop_nil length_limit 0 _ acc
  | cons r rs => exact pack_loop_stop (by omega) length_limit r rs _ acc

/-! ### Terminal periods through the packing pipeline -/

theorem splitSpaces_getLast {l : Str} {c : Char} (hc : (c == ' ') = false)
    (h : l.getLast? = some c) :
    ∃ w, (splitSpaces l).getLast? = some w ∧ w.getLast? = some c := by
  rcases List.eq_nil_or_concat (splitSpaces l) with hnil | ⟨qs, w, hqs⟩
  · exact absurd hnil (splitSpaces_ne_nil l)
  · simp only [List.concat_eq_append] at hqs
    have hjoin : pyJoin [' '] (qs ++ [w]) = l := by
      rw [← hqs]
      exact pyJoin_splitSpaces l
    refine ⟨w, by rw [hqs]; exact List.getLast?_concat _, ?_⟩
    cases hw : w with
    | nil =>
      exfalso
      subst hw
      cases hqsn : qs with
      | nil =>
        rw [hqsn] at hjoin
        simp only [List.nil_append] at hjoin
        rw [← hjoin] at h
        simp [pyJoin] at h
      | cons q qs' =>
        rw [hqsn] at hjoin
        rw [← hqsn, pyJoin_append_singleton (by rw [hqsn]; simp)] at hjoin
        rw [← hjoin] at h
        simp only [List.append_nil] at h
        rw [List.getLast?_concat] at h
        injection h with h
        subst h
        simp at hc
    | cons x xs =>
      rw [← hw]
      cases hqsn : qs with
      | nil =>
        rw [hqsn] at hjoin
        simp only [List.nil_append] at hjoin
        rw [show pyJoin [' '] [w] = w from rfl] at hjoin
        rw [hjoin]
        exact h
      | cons q qs' =>
        rw [pyJoin_append_singleton (by rw [hqsn]; simp)] at hjoin
        rw [← hjoin, List.getLast?_append] at h
        have hwne : w ≠ [] := by rw [hw]; simp
        obtain ⟨d, hd⟩ := Option.isSome_iff_exists.mp (List.getLast?_isSome.mpr hwne)
        rw [hd] at h ⊢
        simpa using h

theorem terminated_pyJoin_drop {s : Str} (hdot : s.getLast? = some '.') {rem' : List Str}
    {n m : Nat} (hm : rem' = ((splitSpaces (pyStrip s)).drop n).drop m) :
    Terminated (pyJoin [' '] rem') := by
  cases hrem : rem' with
  | nil => exact Or.inl rfl
  | cons r rs =>
    rw [← hrem]
    have hstrip : (pyStrip s).getLast? = some '.' := pyStrip_getLast_eq hdot (by decide)
    obtain ⟨w, hw, hwdot⟩ := splitSpaces_getLast (by decide) hstrip
    have hne₁ : (splitSpaces (pyStrip s)).drop n ≠ [] := by
      intro hcontra
      rw [hcontra, List.drop_nil] at hm
      rw [hm] at hrem
      cases hrem
    have hne₂ : rem' ≠ [] := by rw [hrem]; simp
    have hlast : rem'.getLast? = some w := by
      rw [hm, getLast?_drop_of_ne_nil (by rw [← hm]; exact hne₂),
        getLast?_drop_of_ne_nil hne₁, hw]
    have hwne : w ≠ [] := by
      intro hcontra
      rw [hcontra] at hwdot
      simp at hwdot
    exact Terminated_of_getLast_dot (by rw [pyJoin_getLast? hlast hwne]; exact hwdot)

theorem sectShape_append_chunk {sect J : Str} (_hsp : SectShape sect)
    (hJ : J.getLast? = some '.') : SectShape (sect ++ J ++ [' ']) := by
  obtain ⟨B, rfl⟩ := List.getLast?_eq_some_iff.mp hJ
  refine Or.inr ⟨sect ++ B, ?_⟩
  simp

theorem pyJoin_cs_getLast (cs : List Str) :
    (pyJoin [' '] (cs ++ [['.']])).getLast? = some '.' := by
  rw [pyJoin_getLast? (List.getLast?_concat _) (by simp)]
  rfl

theorem pack_loop_P {length_limit : Nat} (hl : 1 ≤ length_limit) :
    ∀ (cur : List Str) (tc : Int) (sect : Str) (acc : List Str),
    (∀ s ∈ cur, s.getLast? = some '.') →
    (∀ t ∈ acc, Terminated t) →
    SectShape sect →
    ∃ acc' sect' rest', pack_loop length_limit cur tc sect acc = .ok (acc', sect', rest') ∧
      (∀ t ∈ acc', Terminated t) ∧ SectShape sect' ∧
      (∀ s ∈ rest', s.getLast? = some '.') := by
  intro cur
  induction cur with
  | nil =>
    intro tc sect acc hdots hacc hsp
    exact ⟨acc, sect, [], pack_loop_nil length_limit tc sect acc, hacc, hsp, by simp⟩
  | cons s rest ih =>
    intro tc sect acc hdots hacc hsp
    have hsdot : s.getLast? = some '.' := hdots s (List.mem_cons_self s rest)
    have hrestdots : ∀ u ∈ rest, u.getLast? = some '.' :=
      fun u hu => hdots u (List.mem_cons_of_mem s hu)
    by_cases h0 : tc ≤ 0
    · exact ⟨acc, sect, s :: rest, pack_loop_stop h0 length_limit s rest sect acc, hacc, hsp,
        hdots⟩
    · by_cases hov : tc = (length_limit : Int) ∧ (splitSpaces (pyStrip s)).length + 1 >
          length_limit
      · obtain ⟨extra, rem', hch, hremle, ⟨m, hm⟩, hslices⟩ := chunk_loop_spec hl
          (((splitSpaces (pyStrip s)).drop length_limit).length + 1)
          ((splitSpaces (pyStrip s)).drop length_limit) acc (by omega)
        rw [pack_loop_step_overflow h0 hov hch]
        have hacc₁ : ∀ t ∈ acc ++ extra ++ [pyJoin [' '] rem'], Terminated t := by
          intro t ht
          rcases List.mem_append.mp ht with ht | ht
          · rcases List.mem_append.mp ht with ht | ht
            · exact hacc t ht
            · obtain ⟨A, rfl, _, _⟩ := hslices t ht
              exact Terminated_of_getLast_dot (List.getLast?_concat _)
          · simp only [List.mem_singleton] at ht
            subst ht
            exact terminated_pyJoin_drop hsdot hm
        by_cases hfit : 0 ≤ tc -
            (((((splitSpaces (pyStrip s)).take (length_limit - 2) ++ [['.']]).length : Nat) :
              Int) + 1)
        · rw [if_pos hfit]
          obtain ⟨acc', sect', rest', heq, ha, hs, hr⟩ := ih _ _ _ hrestdots hacc₁
            (sectShape_append_chunk hsp (pyJoin_cs_getLast _))
          exact ⟨acc', sect', rest', heq, ha, hs, hr⟩
        · rw [if_neg hfit]
          exact ⟨_, sect, s :: rest, rfl, hacc₁, hsp, hdots⟩
      · rw [pack_loop_step_no_overflow h0 hov]
        by_cases hfit : 0 ≤ tc - (((splitSpaces (pyStrip s)).length : Int) + 1)
        · rw [if_pos hfit]
          have hJ : (pyJoin [' '] (splitSpaces (pyStrip s))).getLast? = some '.' := by
            rw [pyJoin_splitSpaces]
            exact pyStrip_getLast_eq hsdot (by decide)
          obtain ⟨acc', sect', rest', heq, ha, hs, hr⟩ := ih _ _ _ hrestdots hacc
            (sectShape_append_chunk hsp hJ)
          exact ⟨acc', sect', rest', heq, ha, hs, hr⟩
        · rw [if_neg hfit]
          exact ⟨acc, sect, s :: rest, rfl, hacc, hsp, hdots⟩

theorem section_loop_P {length_limit : Nat} (hl : 1 ≤ length_limit) :
    ∀ (fuel : Nat) (cur acc out : List Str),
    (∀ s ∈ cur, s.getLast? = some '.') →
    (∀ t ∈ acc, Terminated t) →
    section_loop fuel length_limit cur acc = .ok out →
    ∀ t ∈ out, Terminated t := by
  intro fuel
  induction fuel with
  | zero =>
    intro cur acc out _ _ heq
    exact absurd heq (by simp [section_loop])
  | succ fuel ih =>
    intro cur acc out hdots hacc heq
    cases cur with
    | nil =>
      rw [section_loop_nil] at heq
      injection heq with h
      subst h
      exact hacc
    | cons s rest =>
      obtain ⟨acc', sect', rest', hpack, hacc', hsect', hrest'⟩ := pack_loop_P hl (s :: rest)
        (length_limit : Int) [] acc hdots hacc (Or.inl rfl)
      rw [section_loop_cons hpack] at heq
      refine ih rest' (acc' ++ [sect']) out hrest' ?_ heq
      intro t ht
      rcases List.mem_append.mp ht with ht | ht
      · exact hacc' t ht
      · simp only [List.mem_singleton] at ht
        subst ht
        exact Terminated_of_SectShape hsect'

/-- Every segment returned by a successful run of `get_segments` is, up to
stripping, empty or period-terminated. -/
theorem get_segments_terminated {detect : Str → Option (List Str)} {text : Str}
    {out : List Str} (h : get_segments detect text = .ok out) :
    ∀ t ∈ out, Terminated t := by
  unfold get_segments at h
  dsimp only at h
  set sentences :=
    ((pySplitChars (fun c => c == '\n') text).map (fun line =>
      (pySplitChars isBoundary line).filter (fun w => !w.isEmpty))).flatten with hsent
  cases hfl : find_lists sentences with
  | ok ss =>
    rw [hfl] at h
    dsimp only at h
    cases hls : limit_section (ss.map (fun s => s ++ ['.'])) 512 with
    | ok segments =>
      rw [hls] at h
      dsimp only at h
      have hdots : ∀ s ∈ ss.map (fun s => s ++ ['.']), s.getLast? = some '.' := by
        intro s hs
        obtain ⟨u, _, rfl⟩ := List.mem_map.mp hs
        exact List.getLast?_concat _
      have hterm : ∀ t ∈ segments, Terminated t :=
        section_loop_P (by omega) _ _ [] segments hdots (by simp) hls
      have hterm₂ : ∀ t ∈ ensure_English detect segments, Terminated t :=
        fun t ht => hterm t (ensure_English_subset t ht)
      rw [assert_terminated_ok hterm₂] at h
      injection h with h
      subst h
      exact hterm₂
    | indexError =>
      rw [hls] at h
      dsimp only at h
      cases h
    | typeError =>
      rw [hls] at h
      dsimp only at h
      cases h
    | outOfFuel =>
      rw [hls] at h
      dsimp only at h
      cases h
  | indexError =>
    rw [hfl] at h
    cases h
  | typeError =>
    rw [hfl] at h
    cases h
  | outOfFuel =>
    rw [hfl] at h
    cases h

/-! ### Order preservation when no sentence overflows the limit -/

/-- Concatenation of the text chunks appended to a section for a run of
packed sentences: each sentence contributes its stripped text followed by a
space. -/
def chunksOf (l : List Str) : Str := (l.map (fun s => pyStrip s ++ [' '])).flatten

/-- All whitespace-delimited words of a list of strings, in order. -/
def wordsFlat (l : List Str) : List Str := (l.map words).flatten

theorem wordsFlat_append (a b : List Str) : wordsFlat (a ++ b) = wordsFlat a ++ wordsFlat b := by
  simp [wordsFlat]

theorem words_chunksOf (l : List Str) :
    words (chunksOf l) = (l.map (fun s => words (pyStrip s))).flatten := by
  induction l with
  | nil => simp [chunksOf, words_nil]
  | cons s t ih =>
    have hc : chunksOf (s :: t) = pyStrip s ++ ' ' :: chunksOf t := by
      simp [chunksOf]
    rw [hc, words_append_space, ih]
    simp

theorem pack_loop_fit {length_limit : Nat} :
    ∀ (cur : List Str) (tc : Int) (sect : Str) (acc : List Str),
    (∀ s ∈ cur, (splitSpaces (pyStrip s)).length + 1 ≤ length_limit) →
    ∃ k, pack_loop length_limit cur tc sect acc =
        .ok (acc, sect ++ chunksOf (cur.take k), cur.drop k) ∧
      (cur ≠ [] → tc = (length_limit : Int) → 1 ≤ k) := by
  intro cur
  induction cur with
  | nil =>
    intro tc sect acc _
    exact ⟨0, by simp [pack_loop_nil, chunksOf], by simp⟩
  | cons s rest ih =>
    intro tc sect acc hfits
    have hs : (splitSpaces (pyStrip s)).length + 1 ≤ length_limit :=
      hfits s (List.mem_cons_self s rest)
    have hlen1 : 1 ≤ (splitSpaces (pyStrip s)).length :=
      List.length_pos.mpr (splitSpaces_ne_nil _)
    by_cases h0 : tc ≤ 0
    · refine ⟨0, by simp [pack_loop_stop h0, chunksOf], ?_⟩
      intro _ htc
      exfalso
      omega
    · have hov : ¬ (tc = (length_limit : Int) ∧ (splitSpaces (pyStrip s)).length + 1 >
          length_limit) := by
        rintro ⟨htc, hgt⟩
        omega
      rw [pack_loop_step_no_overflow h0 hov]
      by_cases hfit : 0 ≤ tc - (((splitSpaces (pyStrip s)).length : Int) + 1)
      · rw [if_pos hfit]
        obtain ⟨k', heq, _⟩ := ih _ _ _
          (fun u hu => hfits u (List.mem_cons_of_mem s hu))
        refine ⟨k' + 1, ?_, fun _ _ => by omega⟩
        rw [List.take_succ_cons, List.drop_succ_cons, heq]
        have : sect ++ pyJoin [' '] (splitSpaces (pyStrip s)) ++ [' ']
            ++ chunksOf (rest.take k') = sect ++ chunksOf (s :: rest.take k') := by
          rw [pyJoin_splitSpaces]
          simp [chunksOf]
        rw [this]
      · rw [if_neg hfit]
        refine ⟨0, by simp [chunksOf], ?_⟩
        intro _ htc
        exfalso
        omega

theorem section_loop_fit {length_limit : Nat} :
    ∀ (fuel : Nat) (cur acc out : List Str),
    (∀ s ∈ cur, (splitSpaces (pyStrip s)).length + 1 ≤ length_limit) →
    section_loop fuel length_limit cur acc = .ok out →
    wordsFlat out = wordsFlat acc ++ (cur.map (fun s => words (pyStrip s))).flatten := by
  intro fuel
  induction fuel with
  | zero =>
    intro cur acc out _ heq
    exact absurd heq (by simp [section_loop])
  | succ fuel ih =>
    intro cur acc out hfits heq
    cases cur with
    | nil =>
      rw [section_loop_nil] at heq
      injection heq with h
      subst h
      simp
    | cons s rest =>
      obtain ⟨k, hpack, hk⟩ := pack_loop_fit (s :: rest) (length_limit : Int) [] acc hfits
      rw [section_loop_cons hpack] at heq
      have hrest := ih ((s :: rest).drop k) (acc ++ [[] ++ chunksOf ((s :: rest).take k)]) out
        (fun u hu => hfits u (List.drop_subset _ _ hu)) heq
      rw [hrest, wordsFlat_append]
      rw [show wordsFlat [[] ++ chunksOf ((s :: rest).take k)]
          = words (chunksOf ((s :: rest).take k)) by simp [wordsFlat]]
      rw [words_chunksOf, List.append_assoc]
      congr 1
      rw [← List.flatten_append, ← List.map_append, List.take_append_drop]

/-- When every sentence fits inside the limit, `limit_section` succeeds and
the words of its output, in order, are exactly the words of the input
sentences, in order. -/
theorem limit_section_fit {sentences : List Str} {length_limit : Nat}
    (hfits : ∀ s ∈ sentences, (splitSpaces (pyStrip s)).length + 1 ≤ length_limit) :
    ∃ out, limit_section sentences length_limit = .ok out ∧
      wordsFlat out = (sentences.map (fun s => words (pyStrip s))).flatten := by
  cases hs : sentences with
  | nil => exact ⟨[], rfl, rfl⟩
  | cons s rest =>
    have h2 : 2 ≤ length_limit := by
      have := hfits s (by rw [hs]; exact List.mem_cons_self s rest)
      have := List.length_pos.mpr (splitSpaces_ne_nil (pyStrip s))
      omega
    rw [← hs]
    obtain ⟨out, hout⟩ := @limit_section_ok sentences length_limit h2
    refine ⟨out, hout, ?_⟩
    have := section_loop_fit (sentences.length + 1) sentences [] out hfits hout
    simpa [wordsFlat] using this

/-! ### The list linearizer on a marker with no matching follower -/

theorem list_items_loop_no_match {fuel : Nat} {ss : List Str} {current : Str} {fc h0 : Char}
    {li : Nat} {nxt : Str} (hnxt : ss[li]? = some nxt) (hh0 : nxt.head? = some h0)
    (hne : h0 ≠ fc) :
    list_items_loop (fuel + 1) ss current fc li = .ok (ss, li) := by
  conv_lhs => unfold list_items_loop
  rw [hnxt]
  dsimp only
  rw [hh0]
  dsimp only
  rw [if_neg]
  rintro ⟨h1, _⟩
  exact hne h1

theorem find_lists_loop_marker_no_match {fuel : Nat} {ss : List Str} {i : Nat}
    {current nxt : Str} {c fc h0 : Char}
    (hcur : ss[i]? = some current)
    (hlast : current.getLast? = some c) (hmark : c = ':' ∨ c = ';')
    (hnxt : ss[i + 1]? = some nxt)
    (hstrip : ¬ (pyStrip nxt).length = 0)
    (hfc : (pyStrip nxt).head? = some fc)
    (hh0 : nxt.head? = some h0) (hne : h0 ≠ fc) :
    find_lists_loop (fuel + 1) ss i = find_lists_loop fuel ss (i + 1) := by
  conv_lhs => unfold find_lists_loop
  rw [hcur]
  dsimp only
  rw [hlast]
  dsimp only
  rw [if_pos hmark, hnxt]
  dsimp only
  rw [if_neg hstrip, hfc]
  dsimp only
  rw [list_items_loop_no_match hnxt hh0 hne]

/-! ### Forced splitting of a single oversized sentence -/

theorem limit_section_single_oversized {s : Str} {length_limit : Nat}
    (h2 : 2 ≤ length_limit)
    (hbig : (splitSpaces (pyStrip s)).length + 1 > length_limit)
    (hsmall : (splitSpaces (pyStrip s)).length ≤ 2 * length_limit) :
    limit_section [s] length_limit =
      .ok [pyJoin [' '] ((splitSpaces (pyStrip s)).drop length_limit),
        pyJoin [' '] ((splitSpaces (pyStrip s)).take (length_limit - 2) ++ [['.']])
          ++ [' ']] := by
  have hch : chunk_loop (((splitSpaces (pyStrip s)).drop length_limit).length + 1) length_limit
      ((splitSpaces (pyStrip s)).drop length_limit) [] =
      .ok ([], (splitSpaces (pyStrip s)).drop length_limit) := by
    conv_lhs => unfold chunk_loop
    rw [if_neg (by rw [List.length_drop]; omega)]
  have hcs : ((splitSpaces (pyStrip s)).take (length_limit - 2) ++ [['.']]).length
      = length_limit - 1 := by
    simp only [List.length_append, List.length_take, List.length_singleton]
    omega
  have hcond : (0 : Int) ≤ (length_limit : Int) -
      (((((splitSpaces (pyStrip s)).take (length_limit - 2) ++ [['.']]).length : Nat) : Int)
        + 1) := by
    rw [hcs]
    omega
  have hpack : pack_loop length_limit [s] (length_limit : Int) [] [] =
      .ok ([] ++ [pyJoin [' '] ((splitSpaces (pyStrip s)).drop length_limit)],
        [] ++ pyJoin [' '] ((splitSpaces (pyStrip s)).take (length_limit - 2) ++ [['.']])
          ++ [' '], []) := by
    rw [pack_loop_step_overflow (by omega) ⟨rfl, hbig⟩ hch, if_pos hcond]
    exact pack_loop_nil length_limit _ _ _
  unfold limit_section
  rw [show ([s].length + 1) = 1 + 1 from rfl, section_loop_cons hpack, section_loop_nil]
  simp

theorem pyJoin_head? {ws : List Str} {w : Str} (h : ws.head? = some w) (hw : w ≠ []) :
    (pyJoin [' '] ws).head? = w.head? := by
  cases ws with
  | nil => simp at h
  | cons a as =>
    simp only [List.head?_cons, Option.some_inj] at h
    subst h
    cases as with
    | nil => rfl
    | cons b bs =>
      rw [pyJoin_cons_cons, List.append_assoc, List.head?_append]
      obtain ⟨x, xs, rfl⟩ : ∃ x xs, a = x :: xs := by
        cases a with
        | nil => exact absurd rfl hw
        | cons x xs => exact ⟨x, xs, rfl⟩
      rfl

/-! ### Concrete inputs for the forced-split behaviour -/

/-- A single sentence of 1000 whitespace-delimited words (the last word
carries the terminal period). -/
def c4words : List Str := List.replicate 999 ['a'] ++ [['a', '.']]

def c4sent : Str := pyJoin [' '] c4words

def c4seg1 : Str := pyJoin [' '] (c4words.drop 512)

def c4seg2 : Str := pyJoin [' '] (c4words.take 510 ++ [['.']]) ++ [' ']

theorem c4words_spacefree : ∀ w ∈ c4words, ∀ c ∈ w, (c == ' ') = false := by
  intro w hw c hc
  rcases List.mem_append.mp hw with hw | hw
  · obtain ⟨_, rfl⟩ := List.mem_replicate.mp hw
    simp only [List.mem_singleton] at hc
    subst hc
    rfl
  · simp only [List.mem_singleton] at hw
    subst hw
    rcases List.mem_cons.mp hc with rfl | hc
    · rfl
    · simp only [List.mem_singleton] at hc
      subst hc
      rfl

theorem c4words_ne_nil : c4words ≠ [] := by
  unfold c4words
  simp

theorem c4words_length : c4words.length = 1000 := by
  unfold c4words
  simp

theorem c4sent_strip : pyStrip c4sent = c4sent := by
  have hh : c4sent.head? = some 'a' := by
    have : c4words.head? = some ['a'] := by
      unfold c4words
      rw [show (999 : Nat) = 998 + 1 from rfl, List.replicate_succ]
      rfl
    rw [show c4sent.head? = (pyJoin [' '] c4words).head? from rfl,
      pyJoin_head? this (by simp)]
    rfl
  have hl : c4sent.getLast? = some '.' := by
    have : c4words.getLast? = some ['a', '.'] := List.getLast?_concat _
    rw [show c4sent.getLast? = (pyJoin [' '] c4words).getLast? from rfl,
      pyJoin_getLast? this (by simp)]
    rfl
  exact pyStrip_eq_self hh (by decide) hl (by decide)

theorem c4sent_split : splitSpaces (pyStrip c4sent) = c4words := by
  rw [c4sent_strip]
  exact splitSpaces_pyJoin c4words_ne_nil c4words_spacefree

/-- Evaluation of the packer on the single 1000-word sentence with limit 512:
the tail slice (words 512 to 999) is emitted first as its own segment, and
the head slice (words 0 to 509, terminated with a period) forms the second
segment; words 510 and 511 are dropped. -/
theorem c4_eval : limit_section [c4sent] 512 = .ok [c4seg1, c4seg2] := by
  have h := @limit_section_single_oversized c4sent 512
    (by omega) (by rw [c4sent_split, c4words_length]; omega)
    (by rw [c4sent_split, c4words_length]; omega)
  rw [c4sent_split] at h
  exact h

theorem c4seg1_wordCount : wordCount c4seg1 = 488 := by
  have hlen : (c4words.drop 512).length = 488 := by
    rw [List.length_drop, c4words_length]
  have hne : c4words.drop 512 ≠ [] := List.length_pos.mp (by omega)
  have hsf : ∀ w ∈ c4words.drop 512, ∀ c ∈ w, (c == ' ') = false :=
    fun w hw => c4words_spacefree w (List.drop_subset _ _ hw)
  unfold c4seg1 wordCount
  rw [words_pyJoin hne hsf, List.filter_eq_self.mpr, hlen]
  intro w hw
  rcases List.mem_append.mp (List.drop_subset _ _ hw : w ∈ c4words) with hmem | hmem
  · obtain ⟨_, rfl⟩ := List.mem_replicate.mp hmem
    rfl
  · simp only [List.mem_singleton] at hmem
    subst hmem
    rfl

theorem c4seg2_wordCount : wordCount c4seg2 ≤ 512 := by
  have hsf : ∀ w ∈ c4words.take 510 ++ [['.']], ∀ c ∈ w, (c == ' ') = false := by
    intro w hw c hc
    rcases List.mem_append.mp hw with hw | hw
    · exact c4words_spacefree w (List.take_subset _ _ hw) c hc
    · simp only [List.mem_singleton] at hw
      subst hw
      simp only [List.mem_singleton] at hc
      subst hc
      rfl
  unfold c4seg2 wordCount
  rw [show (words (pyJoin [' '] (c4words.take 510 ++ [['.']]) ++ [' '])).length
      = wordCount (pyJoin [' '] (c4words.take 510 ++ [['.']])) by
    rw [words_append_single_space]; rfl]
  calc wordCount (pyJoin [' '] (c4words.take 510 ++ [['.']]))
      ≤ (c4words.take 510 ++ [['.']]).length := wordCount_pyJoin_le _ hsf
    _ ≤ 512 := by
      simp only [List.length_append, List.length_take, List.length_singleton, c4words_length]
      omega

theorem c4seg1_dot : (pyStrip c4seg1).getLast? = some '.' := by
  have hne : c4words.drop 512 ≠ [] := List.length_pos.mp (by
    rw [List.length_drop, c4words_length]
    omega)
  have hlast : (c4words.drop 512).getLast? = some ['a', '.'] := by
    rw [getLast?_drop_of_ne_nil hne]
    exact List.getLast?_concat _
  have : c4seg1.getLast? = some '.' := by
    rw [show c4seg1.getLast? = (pyJoin [' '] (c4words.drop 512)).getLast? from rfl,
      pyJoin_getLast? hlast (by simp)]
    rfl
  exact pyStrip_getLast_eq this (by decide)

theorem c4seg2_dot : (pyStrip c4seg2).getLast? = some '.' := by
  obtain ⟨B, hB⟩ := List.getLast?_eq_some_iff.mp (pyJoin_cs_getLast (c4words.take 510))
  have : c4seg2 = B ++ '.' :: [' '] := by
    unfold c4seg2
    rw [hB]
    simp
  rw [this]
  exact pyStrip_append_spaces (by decide) (by
    intro x hx
    simp only [List.mem_singleton] at hx
    subst hx
    decide)

theorem c4sent_wordCount : wordCount c4sent = 1000 := by
  unfold c4sent wordCount
  rw [words_pyJoin c4words_ne_nil c4words_spacefree, List.filter_eq_self.mpr, c4words_length]
  intro w hw
  rcases List.mem_append.mp hw with hmem | hmem
  · obtain ⟨_, rfl⟩ := List.mem_replicate.mp hmem
    rfl
  · simp only [List.mem_singleton] at hmem
    subst hmem
    rfl

/-! ### The claims -/

/-- Claim C1: for every input list of sentences and limit 512, every Segment
produced by `limit_section` contains at most 512 word units in aggregate
(proved here for every output entry, forced-overflow slices included, which
subsumes the claimed statement), and a sentence that exactly exhausts the
remaining budget (budget 0 after subtracting its length plus one) is still
packed into the current Segment, with the cursor moving past it. -/
theorem claim_C1 :
    (∀ (sentences out : List Str), limit_section sentences 512 = .ok out →
      ∀ seg ∈ out, wordCount seg ≤ 512) ∧
    (∀ (s : Str) (rest : List Str) (tc : Int) (sect : Str) (acc : List Str),
      0 < tc →
      ¬ (tc = ((512 : Nat) : Int) ∧ (splitSpaces (pyStrip s)).length + 1 > 512) →
      tc - (((splitSpaces (pyStrip s)).length : Int) + 1) = 0 →
      pack_loop 512 (s :: rest) tc sect acc =
        .ok (acc, sect ++ pyJoin [' '] (splitSpaces (pyStrip s)) ++ [' '], rest)) := by
  constructor
  · intro sentences out heq
    exact section_loop_wc (by omega) _ _ _ _ (by simp) heq
  · intro s rest tc sect acc h0 hno hexact
    exact pack_loop_exact_fit h0 hno hexact rest sect acc

theorem claim_C1_witness :
    (limit_section [str "hi there"] 512 = .ok [str "hi there "] ∧
      wordCount (str "hi there ") ≤ 512) ∧
    ((0 : Int) < 4 ∧ (4 : Int) - (((splitSpaces (pyStrip (str "a b c"))).length : Int) + 1) = 0 ∧
      pack_loop 512 [str "a b c"] 4 [] [] =
        .ok ([], [] ++ pyJoin [' '] (splitSpaces (pyStrip (str "a b c"))) ++ [' '], [])) :=
  ⟨⟨by decide, claim_C1.1 [str "hi there"] [str "hi there "] (by decide) (str "hi there ")
      (by simp)⟩,
   ⟨by decide, by decide, claim_C1.2 (str "a b c") [] 4 [] [] (by decide) (by decide)
      (by decide)⟩⟩

/-- Claim C2 (code bug): the forward scan of `find_lists` evaluates
`sentences[list_index][0]` before the bound test `list_index < len(sentences)`
and reads `sentences[sentence_index + 1]` unconditionally, so it raises
`IndexError` when every remaining sentence matches the marker character, and
when the final sentence ends in a colon. -/
theorem claim_C2 :
    find_lists [str "A:", str "- x", str "- y"] = .indexError ∧
    find_lists [str "Note:"] = .indexError :=
  ⟨by decide, by decide⟩

/-- Claim C3 counterexample: packing the single seven-word sentence
"a b c d e f g" with limit 3 force-splits it, emitting the tail slices
("d e." and "g") before the segment holding the head words ("a . "), so the
concatenated output words neither equal the input words nor start at the
sentence's beginning; the first emitted word is "d", from the middle of the
sentence. -/
theorem claim_C3_counterexample :
    limit_section [str "a b c d e f g"] 3 = .ok [str "d e.", str "g", str "a . "] ∧
    wordsFlat [str "d e.", str "g", str "a . "] ≠
      (([str "a b c d e f g"]).map (fun s => words (pyStrip s))).flatten ∧
    (wordsFlat [str "d e.", str "g", str "a . "]).head? = some (str "d") ∧
    (words (pyStrip (str "a b c d e f g"))).head? = some (str "a") :=
  ⟨by decide, by decide, by decide, by decide⟩

/-- Claim C3 (amended): sentence order is preserved provided no sentence
exceeds the limit: when every sentence's word count plus one is at most the
limit, `limit_section` succeeds and the words of its output Segments,
concatenated in output order, are exactly the words of the input sentences
in their original order.  (When a sentence is force-split the tail slices
are emitted before the head slice, so order is not preserved in that
case.) -/
theorem claim_C3 (sentences : List Str) (length_limit : Nat)
    (hfits : ∀ s ∈ sentences, (splitSpaces (pyStrip s)).length + 1 ≤ length_limit) :
    ∃ out, limit_section sentences length_limit = .ok out ∧
      wordsFlat out = (sentences.map (fun s => words (pyStrip s))).flatten :=
  limit_section_fit hfits

theorem claim_C3_witness :
    (∀ s ∈ [str "a b", str "c"], (splitSpaces (pyStrip s)).length + 1 ≤ 4) ∧
    ∃ out, limit_section [str "a b", str "c"] 4 = .ok out ∧
      wordsFlat out = (([str "a b", str "c"]).map (fun s => words (pyStrip s))).flatten :=
  ⟨by decide, claim_C3 [str "a b", str "c"] 4 (by decide)⟩

/-- Claim C4 counterexample: on the single 1000-word sentence with limit 512
the packer emits the tail slice of words 512 to 999 (488 units, not
limit − 1 = 511) as its own standalone first Segment, and it is the head
slice, not the final remainder, that seeds the Segment under construction. -/
theorem claim_C4_counterexample :
    limit_section [c4sent] 512 = .ok [c4seg1, c4seg2] ∧
    wordCount c4sent = 1000 ∧
    wordCount c4seg1 = 488 ∧ (488 : Nat) ≠ 512 - 1 :=
  ⟨c4_eval, c4sent_wordCount, c4seg1_wordCount, by decide⟩

/-- Claim C4 (amended): on a single sentence of 1000 word units with limit
512, `limit_section` emits exactly two Segments, each of at most 512 units
and each period-terminated after stripping: first the tail slice of words
512 to 999 as a standalone Segment, then the Segment seeded by the head
slice of words 0 to 509 terminated with a period (words 510 and 511 are
dropped; the head slice, not the final remainder, seeds the Segment under
construction). -/
theorem claim_C4 :
    limit_section [c4sent] 512 = .ok [c4seg1, c4seg2] ∧
    wordCount c4sent = 1000 ∧
    wordCount c4seg1 ≤ 512 ∧ wordCount c4seg2 ≤ 512 ∧
    (pyStrip c4seg1).getLast? = some '.' ∧ (pyStrip c4seg2).getLast? = some '.' :=
  ⟨c4_eval, c4sent_wordCount, by rw [c4seg1_wordCount]; omega, c4seg2_wordCount,
    c4seg1_dot, c4seg2_dot⟩

/-- Claim C5 counterexample: on `["Note:", "Unrelated sentence."]` the code
takes the marker character from the follower itself (so 'U' matches 'U'),
merges the follower into the marker, and then raises `IndexError` scanning
past the end of the list; the marker is not passed through unmodified with
the follower unmerged as claimed. -/
theorem claim_C5_counterexample :
    find_lists [str "Note:", str "Unrelated sentence."] = .indexError := by
  decide

/-- Claim C5 (amended): a marker sentence whose immediate follower's first
character differs from the derived marker character (the first character of
the stripped follower, which can differ only when the follower begins with
whitespace) is left untouched: the scan step leaves the sentence list
unchanged and resumes at the next index. -/
theorem claim_C5 {fuel : Nat} {ss : List Str} {i : Nat} {current nxt : Str} {c fc h0 : Char}
    (hcur : ss[i]? = some current) (hlast : current.getLast? = some c)
    (hmark : c = ':' ∨ c = ';') (hnxt : ss[i + 1]? = some nxt)
    (hstrip : ¬ (pyStrip nxt).length = 0) (hfc : (pyStrip nxt).head? = some fc)
    (hh0 : nxt.head? = some h0) (hne : h0 ≠ fc) :
    find_lists_loop (fuel + 1) ss i = find_lists_loop fuel ss (i + 1) :=
  find_lists_loop_marker_no_match hcur hlast hmark hnxt hstrip hfc hh0 hne

theorem claim_C5_witness :
    (str "Note:").getLast? = some ':' ∧ (str " x").head? = some ' ' ∧
    (pyStrip (str " x")).head? = some 'x' ∧
    find_lists_loop 3 [str "Note:", str " x"] 0 = find_lists_loop 2 [str "Note:", str " x"] 1 :=
  ⟨by decide, by decide, by decide,
    @claim_C5 2 [str "Note:", str " x"] 0 (str "Note:") (str " x") ':' 'x' ' '
      (by decide) (by decide) (Or.inl rfl) (by decide) (by decide) (by decide) (by decide)
      (by decide)⟩

/-- Claim C6 (code bug): the code appends a period to every sentence after
list linearization, unconditionally — contrary to its own comment ("Every
sentence is ended with a period if the last character isn't in [;, :]") and
to the claim: the marker "He said:" becomes "He said:." and the already
terminated list item "He said:- a." becomes "He said:- a..". -/
theorem claim_C6 :
    get_segments (fun _ => none) (str "He said:\n- a\nDone") =
      .ok [str "He said:. He said:- a.. Done. "] := by
  decide

/-- Claim C7: on `["Fruits:", "- apple", "- banana", "Done"]` the List
Linearizer rewrites the two list items as "Fruits:- apple." and
"Fruits:- banana.", keeps the marker sentence in place, and leaves "Done"
separate and unmodified (the later normalization step appends its period,
giving "Done."). -/
theorem claim_C7 :
    find_lists [str "Fruits:", str "- apple", str "- banana", str "Done"] =
      .ok [str "Fruits:", str "Fruits:- apple.", str "Fruits:- banana.", str "Done"] ∧
    str "Done" ++ ['.'] = str "Done." :=
  ⟨by decide, by decide⟩

/-- Claim C8: `ensure_English` keeps a string if and only if the classifier
reports exactly one language equal to "en", or the classifier fails to
produce a verdict (modelled by `detect` returning `none`), in which case the
string is retained (fail-open). -/
theorem claim_C8 (detect : Str → Option (List Str)) (sentences : List Str) (s : Str) :
    s ∈ ensure_English detect sentences ↔
      s ∈ sentences ∧ (detect s = none ∨
        ∃ probs, detect s = some probs ∧ probs.length = 1 ∧ probs.headI = str "en") :=
  ensure_English_mem detect sentences s

/-- Claim C9 counterexample: a successful run of `get_segments` returns the
segment "Hi. ", whose final character is a space, not a period — segments
are period-terminated only up to the trailing separator space. -/
theorem claim_C9_counterexample :
    get_segments (fun _ => none) (str "Hi") = .ok [str "Hi. "] ∧
    (str "Hi. ").getLast? ≠ some '.' :=
  ⟨by decide, by decide⟩

/-- Claim C9 (amended): every Segment returned by a successful run of
`get_segments` is terminated by a period up to trailing whitespace: its
stripped text is empty or ends in a period; and a segment violating this
invariant at the pipeline boundary aborts processing (the attempted in-place
fix `sentence[-1] = "."` raises a `TypeError`) rather than being silently
passed through. -/
theorem claim_C9 :
    (∀ (detect : Str → Option (List Str)) (text : Str) (out : List Str),
      get_segments detect text = .ok out →
      ∀ s ∈ out, pyStrip s = [] ∨ (pyStrip s).getLast? = some '.') ∧
    (∀ (segments : List Str) (s : Str), s ∈ segments → pyStrip s ≠ [] →
      (pyStrip s).getLast? ≠ some '.' → assert_terminated segments = .typeError) := by
  constructor
  · intro detect text out h s hs
    exact get_segments_terminated h s hs
  · intro segments s hs h1 h2
    exact assert_terminated_typeError hs h1 h2

theorem claim_C9_witness :
    (pyStrip (str "Hi. ") = [] ∨ (pyStrip (str "Hi. ")).getLast? = some '.') ∧
    assert_terminated [str "abc"] = .typeError :=
  ⟨claim_C9.1 (fun _ => none) (str "Hi") [str "Hi. "] (by decide) (str "Hi. ") (by simp),
   claim_C9.2 [str "abc"] (str "abc") (by simp) (by decide) (by decide)⟩

/-- Claim C10: for every finite input list of sentences and every
length limit of at least 2, `limit_section` terminates: with fuel equal to
the number of sentences plus one (each round of the outer loop consumes at
least one sentence) the loop completes and returns a result. -/
theorem claim_C10 (sentences : List Str) (length_limit : Nat) (h2 : 2 ≤ length_limit) :
    ∃ out, limit_section sentences length_limit = .ok out :=
  limit_section_ok h2

theorem claim_C10_witness :
    2 ≤ 2 ∧ ∃ out, limit_section [str "a"] 2 = .ok out :=
  ⟨by decide, claim_C10 [str "a"] 2 (by decide)⟩
